import Mathlib

/-!
Shallow embedding of the herald publication engine (package `herald`):
the datastore-backed block store, the entry-chunk builder, the
advertisement chain (`dsPublisher` in the source) and the HTTP handlers
(`httpPublisher`), together with the options constructor `newOptions`.

Modelling conventions:
* A multihash is an opaque identifier (`Nat`).
* CIDs are modelled under an ideal (collision-free) hash: a link carries
  the content of the block it names, so `cid(b) = cid(b')` iff the block
  contents are equal, matching the collision-resistance assumption of the
  real link prototype.  `Lnk.noEntries` is the distinguished
  `schema.NoEntries` sentinel CID.
* The datastore is a total map from keys to byte values; byte values are
  abstracted by their parse status (a valid CID encoding, an IPLD block
  encoding, or other bytes).
* The signature set by `ad.Sign` is a deterministic function of the other
  advertisement fields and is elided from the block content; signing,
  IPLD node construction and datastore puts may fail, which is modelled
  by explicit failure injection (`FailSpec`), mirroring the error
  branches of `generateAdvertisement`.
* The writer lock of `generateAdvertisement` makes each call atomic; the
  model therefore presents each call as one state transition.
-/

namespace HeraldModel

/-- Multihash: opaque self-describing hash, treated as an opaque identifier. -/
abbrev MH := Nat

/-- A CID/link under an ideal hash.  `nilL` is the absent link (Go `nil`
`ipld.Link`, equivalently `cid.Undef`); `noEntries` is the fixed
`schema.NoEntries` sentinel CID; `chunk` is the CID of an entry-chunk block
(`schema.EntryChunk{Entries, Next}`); `ad` is the CID of an advertisement
block (`schema.Advertisement` fields in source order, signature elided). -/
inductive Lnk where
  | nilL : Lnk
  | noEntries : Lnk
  | chunk (entries : List MH) (next : Lnk) : Lnk
  | ad (previousID : Lnk) (provider : String) (addresses : List String)
      (entries : Lnk) (contextID : List Nat) (metadata : List Nat)
      (isRm : Bool) : Lnk
deriving DecidableEq

/-- Datastore keys: the fixed `headKey = datastore.NewKey("head")` and the
canonical string form of a CID (`dsKey`). -/
inductive Key where
  | head : Key
  | blockKey (c : Lnk) : Key
deriving DecidableEq

/-- Datastore values, abstracted by parse status: `cidBytes c` are bytes that
`cid.CidFromBytes` parses as `c` (e.g. `head.Bytes()`), `blockBytes b` is the
IPLD encoding of block `b`, `junkBytes` is any other byte string. -/
inductive Val where
  | cidBytes (c : Lnk) : Val
  | blockBytes (b : Lnk) : Val
  | junkBytes (n : Nat) : Val
deriving DecidableEq

/-- The key-value datastore (`datastore.Datastore`): a total map. -/
def Ds := Key → Option Val

/-- An empty datastore (fresh system). -/
def dsEmpty : Ds := fun _ => none

/-- `ds.Put`: atomic single-key store. -/
def dsPut (ds : Ds) (k : Key) (v : Val) : Ds :=
  fun k' => if k' = k then some v else ds k'

/-- Error kinds surfaced by the publisher. -/
inductive Err where
  | signFail : Err
  | toNodeFail : Err
  | putFail : Err
  | contentNotFound : Err
deriving DecidableEq

/-- The publisher configuration held by `Herald.options` that
`dsPublisher` reads: peer id string, provider addresses, metadata bytes,
entry chunk size (a Go `int`). -/
structure HeraldCfg where
  provider : String
  providerAddrs : List String
  metadata : List Nat
  adEntriesChunkSize : Int
  topic : String
deriving DecidableEq

/-- Failure injection for the fallible steps of `generateAdvertisement`:
`ad.Sign`, `ad.ToNode`, the `ls.Store` datastore put of the advertisement
block, and the head-key put. -/
structure FailSpec where
  signFails : Bool
  toNodeFails : Bool
  adPutFails : Bool
  headPutFails : Bool
deriving DecidableEq

/-- The all-success failure specification. -/
def noFail : FailSpec := ⟨false, false, false, false⟩

/-- `dsPublisher.GetHead`: read the head key; absent means empty chain
(`cid.Undef, nil`); bytes that fail `cid.CidFromBytes` are logged and also
returned as `cid.Undef` with a nil error.  (The model datastore `Get` is
total, so the error-propagation branch of the source is unreachable here.) -/
def GetHead (ds : Ds) : Except Err Lnk :=
  match ds Key.head with
  | none => .ok Lnk.nilL
  | some (Val.cidBytes c) => .ok c
  | some _ => .ok Lnk.nilL

/-- A Catalog with an error-free iterator: its `ID()` bytes and the finite
multihash sequence its iterator yields. -/
structure CatalogM where
  id : List Nat
  mhs : List MH
deriving DecidableEq

/-- `dsPublisher.generateEntriesChunk`: build the `schema.EntryChunk` node
for the buffered multihashes and current next-link and store it via
`ls.Store`, which writes the block bytes under its CID key and returns the
link. -/
def generateEntriesChunk (st : Ds) (next : Lnk) (mhs : List MH) : Lnk × Ds :=
  let c := Lnk.chunk mhs next
  (c, dsPut st (Key.blockKey c) (Val.blockBytes c))

/-- The iterator loop of `dsPublisher.generateEntries`: pull each multihash,
append it to the buffer, and when the buffer length reaches
`adEntriesChunkSize` emit a chunk, thread its link as `next`, and clear the
buffer.  Returns the final buffer, next-link and datastore. -/
def genLoop (hc : HeraldCfg) : List MH → List MH → Lnk → Ds → List MH × Lnk × Ds
  | [], buf, next, st => (buf, next, st)
  | mh :: rest, buf, next, st =>
    let buf1 := buf ++ [mh]
    if (buf1.length : Int) ≥ hc.adEntriesChunkSize then
      let r := generateEntriesChunk st next buf1
      genLoop hc rest [] r.1 r.2
    else
      genLoop hc rest buf1 next st

/-- `dsPublisher.generateEntries`: run the iterator loop, then emit one
final chunk if the buffer is non-empty; return the resulting next-link
(`nilL` for an empty catalog — the Go `var next ipld.Link` zero value). -/
def generateEntries (hc : HeraldCfg) (st : Ds) (mhs : List MH) : Lnk × Ds :=
  let r := genLoop hc mhs [] Lnk.nilL st
  if r.1.length ≠ 0 then
    let r2 := generateEntriesChunk r.2.2 r.2.1 r.1
    (r2.1, r2.2)
  else (r.2.1, r.2.2)

/-- `dsPublisher.generateAdvertisement`: under the writer lock, read the
head (the previous id is nil iff the head is `cid.Undef`), build the
advertisement, sign it, convert it to an IPLD node, store the block, and
finally put the new CID's bytes at the head key.  Each fallible step
returns its error with the datastore as written so far. -/
def generateAdvertisement (hc : HeraldCfg) (f : FailSpec) (st : Ds) (id : List Nat)
    (entries : Lnk) (isRm : Bool) : Except Err Lnk × Ds :=
  match GetHead st with
  | .error e => (.error e, st)
  | .ok previousID =>
    let a := Lnk.ad previousID hc.provider hc.providerAddrs entries id hc.metadata isRm
    if f.signFails then (.error .signFail, st)
    else if f.toNodeFails then (.error .toNodeFail, st)
    else if f.adPutFails then (.error .putFail, st)
    else
      let st1 := dsPut st (Key.blockKey a) (Val.blockBytes a)
      if f.headPutFails then (.error .putFail, st1)
      else (.ok a, dsPut st1 Key.head (Val.cidBytes a))

/-- `dsPublisher.Publish`: generate the entry chunks from the catalog, then
generate the advertisement with `isRm = false`. -/
def publishM (hc : HeraldCfg) (f : FailSpec) (st : Ds) (cat : CatalogM) :
    Except Err Lnk × Ds :=
  let r := generateEntries hc st cat.mhs
  generateAdvertisement hc f r.2 cat.id r.1 false

/-- `dsPublisher.Retract`: generate an advertisement with the
`schema.NoEntries` sentinel link and `isRm = true`. -/
def retractM (hc : HeraldCfg) (f : FailSpec) (st : Ds) (id : List Nat) :
    Except Err Lnk × Ds :=
  generateAdvertisement hc f st id Lnk.noEntries true

/-- `dsPublisher.GetContent`: read the block bytes stored under the CID key;
a datastore miss is surfaced as `ErrContentNotFound`. -/
def GetContent (ds : Ds) (c : Lnk) : Except Err Val :=
  match ds (Key.blockKey c) with
  | none => .error .contentNotFound
  | some v => .ok v

/-- A Publish or Retract call issued against the publisher. -/
inductive OpM where
  | pub (cat : CatalogM) : OpM
  | ret (id : List Nat) : OpM
deriving DecidableEq

/-- One Publish/Retract call (writer-lock order is call order in this
single-writer model). -/
def runOp (hc : HeraldCfg) (f : FailSpec) (st : Ds) : OpM → Except Err Lnk × Ds
  | .pub cat => publishM hc f st cat
  | .ret id => retractM hc f st id

/-- A sequence of successful Publish/Retract calls: runs each call with no
injected failures and collects the returned CIDs in order. -/
def runOps (hc : HeraldCfg) (st : Ds) : List OpM → List Lnk × Ds
  | [] => ([], st)
  | op :: rest =>
    match runOp hc noFail st op with
    | (.ok c, st1) =>
      match runOps hc st1 rest with
      | (cs, st2) => (c :: cs, st2)
    | (.error _, st1) => ([], st1)

/-- Walk the chunk list from a link, newest chunk first, collecting each
chunk's entry list (the consumer traversal of the singly linked list). -/
def chunkWalkL : Lnk → List (List MH)
  | .chunk es nx => es :: chunkWalkL nx
  | _ => []

/-- The multihashes reachable from a chunk link in oldest-first order:
entries of the first-emitted chunk first.  (`revJoin l =
(chunkWalkL l).reverse.flatten`.) -/
def revJoin : Lnk → List MH
  | .chunk es nx => revJoin nx ++ es
  | _ => []

/-- The `previousID` field of the advertisement block a link names, if the
link names an advertisement. -/
def Lnk.adPrevOf : Lnk → Option Lnk
  | .ad p _ _ _ _ _ _ => some p
  | _ => none

/-- The `isRm` field of the advertisement block a link names. -/
def Lnk.adIsRm : Lnk → Option Bool
  | .ad _ _ _ _ _ _ r => some r
  | _ => none

/-- The `contextID` field of the advertisement block a link names. -/
def Lnk.adCtx : Lnk → Option (List Nat)
  | .ad _ _ _ _ c _ _ => some c
  | _ => none

/-- The `entries` field of the advertisement block a link names. -/
def Lnk.adEnts : Lnk → Option Lnk
  | .ad _ _ _ e _ _ _ => some e
  | _ => none

/-- The head link currently stored, as `GetHead` decodes it. -/
def headLnk (ds : Ds) : Lnk :=
  match ds Key.head with
  | some (Val.cidBytes c) => c
  | _ => Lnk.nilL

/-- Store well-formedness: the bytes stored under a CID key are the encoding
of exactly the block that CID names (content addressing).  Holds for every
store the publisher produces. -/
def Wf (ds : Ds) : Prop :=
  ∀ c v, ds (Key.blockKey c) = some v → v = Val.blockBytes c

/-- `st'` extends `st` by content-addressed block writes only: every key is
either unchanged or holds the block bytes its CID key names. -/
structure GoodExt (st st' : Ds) : Prop where
  ext : ∀ k, st' k = st k ∨ ∃ c, k = Key.blockKey c ∧ st' k = some (Val.blockBytes c)

/-- The chain property of a CID sequence relative to a store: starting from
previous head `p`, each link names an advertisement block stored in the
store whose `previousID` is the preceding CID. -/
def ChainFrom (dsF : Ds) : Lnk → List Lnk → Prop
  | _, [] => True
  | p, c :: rest =>
    (Lnk.adPrevOf c = some p ∧ dsF (Key.blockKey c) = some (Val.blockBytes c)) ∧
      ChainFrom dsF c rest

/-- `httpPublisher.handleGetHead`, abstracted to its response status: 500 on
a `GetHead` error, 204 when the head is `cid.Undef`, otherwise 500 when
signed-head generation or encoding fails and 200 on success. -/
def handleGetHeadM (signOrEncodeFails : Bool) (ds : Ds) : Nat :=
  match GetHead ds with
  | .error _ => 500
  | .ok Lnk.nilL => 204
  | .ok _ => if signOrEncodeFails then 500 else 200

/-- Go `strings.HasPrefix` over byte strings as character lists: does `s`
start with `pre`? -/
def goHasPfx : List Char → List Char → Bool
  | [], _ => true
  | _ :: _, [] => false
  | p :: ps, c :: cs => p == c && goHasPfx ps cs

/-- Go `strings.TrimPrefix(s, pre)`: `s` without the leading `pre`, or `s`
unchanged when `s` does not start with `pre`. -/
def goTrimPfx (s pre : List Char) : List Char :=
  if goHasPfx pre s then s.drop pre.length else s

/-- `httpPublisher.handleGetContent`, abstracted to its response status for
a GET request, parameterized by the vendored `cid.Decode` (which fails on
any string that is not a canonical CID string).  The source computes the
path parameter as `strings.TrimPrefix("/", r.URL.RawPath)` — note the
argument order — then decodes it; 400 on decode failure, 404 when the block
is absent, 200 with the raw block bytes when present. -/
def handleGetContentM (decode : List Char → Option Lnk) (ds : Ds)
    (rawPath : List Char) : Nat :=
  let pathParam := goTrimPfx ['/'] rawPath
  match decode pathParam with
  | none => 400
  | some i =>
    match GetContent ds i with
    | .error _ => 404
    | .ok _ => 200

/-- The recognized functional options of `options.go` that the claims
exercise, with their payloads. -/
inductive GoOption where
  | withHttpPublisherListenAddr (v : String) : GoOption
  | withTopic (v : String) : GoOption
  | withIdentity (k : Nat) : GoOption
  | withProviderAddress (addrs : List String) : GoOption
  | withAdEntriesChunkSize (v : Int) : GoOption
  | withDatastore : GoOption
  | withMetadata (md : List Nat) : GoOption
deriving DecidableEq

/-- The `options` record built by `newOptions`.  `providerAddrs` and
`metadata` are `Option`s to model the Go nil checks; `identity` is an
opaque key id. -/
structure OptionsRec where
  httpPublisherListenAddr : String
  topic : String
  identity : Option Nat
  providerAddrs : Option (List String)
  adEntriesChunkSize : Int
  dsSet : Bool
  metadata : Option (List Nat)
deriving DecidableEq

/-- Construction error sentinel for `newOptions`. -/
inductive CfgErr where
  | metadataUnset : CfgErr
  | providerAddrsUnset : CfgErr
deriving DecidableEq

/-- Apply one functional option to the options record (each setter in
`options.go` assigns its field and returns nil). -/
def applyOpt (o : OptionsRec) : GoOption → OptionsRec
  | .withHttpPublisherListenAddr v => { o with httpPublisherListenAddr := v }
  | .withTopic v => { o with topic := v }
  | .withIdentity k => { o with identity := some k }
  | .withProviderAddress addrs => { o with providerAddrs := some addrs }
  | .withAdEntriesChunkSize v => { o with adEntriesChunkSize := v }
  | .withDatastore => { o with dsSet := true }
  | .withMetadata md => { o with metadata := some md }

/-- `newOptions`: start from the defaults (`0.0.0.0:40080`,
`/indexer/ingest/mainnet`, chunk size `16 << 10`), apply the options, then
reject a nil metadata or nil provider address list; generate an identity
and default the datastore when absent.  No other validation is performed. -/
def newOptionsM (os : List GoOption) : Except CfgErr OptionsRec :=
  let opts : OptionsRec :=
    { httpPublisherListenAddr := "0.0.0.0:40080"
      topic := "/indexer/ingest/mainnet"
      identity := none
      providerAddrs := none
      adEntriesChunkSize := 16384
      dsSet := false
      metadata := none }
  let opts := os.foldl applyOpt opts
  if opts.metadata = none then .error .metadataUnset
  else if opts.providerAddrs = none then .error .providerAddrsUnset
  else
    let opts := if opts.identity = none then { opts with identity := some 0 } else opts
    let opts := if opts.dsSet = false then { opts with dsSet := true } else opts
    .ok opts

/-- The chunk size carried by a successfully constructed options record. -/
def chunkSizeOf : Except CfgErr OptionsRec → Option Int
  | .ok o => some o.adEntriesChunkSize
  | .error _ => none

/-- The advertisement built by `generateAdvertisement` from configuration,
previous head, entries link, context id and removal flag. -/
def mkAd (hc : HeraldCfg) (p ents : Lnk) (id : List Nat) (rm : Bool) : Lnk :=
  Lnk.ad p hc.provider hc.providerAddrs ents id hc.metadata rm

/-- Last element of a CID list, with the given default for the empty list. -/
def lastLnk (p : Lnk) : List Lnk → Lnk
  | [] => p
  | c :: rest => lastLnk c rest

/-- A small concrete configuration used by the concrete instances below:
chunk size 2, one provider address. -/
def cfgW : HeraldCfg := ⟨"p", ["a"], [0], 2, "t"⟩

/-- The advertisement produced by the first concrete call (publish of an
empty catalog with context id `[1]`) from an empty store. -/
def adW1 : Lnk := Lnk.ad Lnk.nilL "p" ["a"] Lnk.nilL [1] [0] false

/-- The advertisement produced by the second concrete call (retract of
context id `[2]`) after `adW1`. -/
def adW2 : Lnk := Lnk.ad adW1 "p" ["a"] Lnk.noEntries [2] [0] true

/-- A concrete two-call sequence: publish then retract. -/
def opsW : List OpM := [OpM.pub ⟨[1], []⟩, OpM.ret [2]]

/-- The advertisement produced by `Retract([1])` from an empty store. -/
def adR1 : Lnk := Lnk.ad Lnk.nilL "p" ["a"] Lnk.noEntries [1] [0] true

/-- The advertisement produced by `Retract([3])` from an empty store. -/
def adR3 : Lnk := Lnk.ad Lnk.nilL "p" ["a"] Lnk.noEntries [3] [0] true

/-- The advertisement produced by publishing an empty catalog with context
id `[7]` from an empty store. -/
def adE7 : Lnk := Lnk.ad Lnk.nilL "p" ["a"] Lnk.nilL [7] [0] false

/-- Failure injection: `ad.Sign` fails. -/
def fSign : FailSpec := ⟨true, false, false, false⟩

/-- A store whose head key holds bytes that do not parse as a CID. -/
def dsJunk : Ds := dsPut dsEmpty Key.head (Val.junkBytes 0)

/-- Option list setting metadata, one provider address, and chunk size 0. -/
def optsC8 : List GoOption :=
  [GoOption.withMetadata [1], GoOption.withProviderAddress ["a"],
   GoOption.withAdEntriesChunkSize 0]

theorem getHead_eq (ds : Ds) : GetHead ds = .ok (headLnk ds) := by
  unfold GetHead headLnk
  cases h : ds Key.head with
  | none => rfl
  | some v => cases v <;> rfl

theorem dsPut_same (ds : Ds) (k : Key) (v : Val) : dsPut ds k v k = some v := by
  simp [dsPut]

theorem dsPut_other (ds : Ds) (k k' : Key) (v : Val) (h : k' ≠ k) :
    dsPut ds k v k' = ds k' := by
  simp [dsPut, h]

theorem goodExt_refl (st : Ds) : GoodExt st st := ⟨fun _ => .inl rfl⟩

theorem goodExt_trans {s1 s2 s3 : Ds} (g1 : GoodExt s1 s2) (g2 : GoodExt s2 s3) :
    GoodExt s1 s3 := by
  refine ⟨fun k => ?_⟩
  rcases g2.ext k with h | ⟨c, hk, h⟩
  · rcases g1.ext k with h' | ⟨c, hk, h'⟩
    · exact .inl (h.trans h')
    · exact .inr ⟨c, hk, h.trans h'⟩
  · exact .inr ⟨c, hk, h⟩

theorem goodExt_putBlock (st : Ds) (c : Lnk) :
    GoodExt st (dsPut st (Key.blockKey c) (Val.blockBytes c)) := by
  refine ⟨fun k => ?_⟩
  by_cases h : k = Key.blockKey c
  · subst h; exact .inr ⟨c, rfl, dsPut_same ..⟩
  · exact .inl (dsPut_other _ _ _ _ h)

theorem GoodExt.headEq {st st' : Ds} (g : GoodExt st st') :
    st' Key.head = st Key.head := by
  rcases g.ext Key.head with h | ⟨c, hk, _⟩
  · exact h
  · exact absurd hk (by simp)

theorem GoodExt.wf {st st' : Ds} (g : GoodExt st st') (w : Wf st) : Wf st' := by
  intro c v h
  rcases g.ext (Key.blockKey c) with h' | ⟨c', hk, h'⟩
  · exact w c v (by rw [← h']; exact h)
  · injection hk with hcc
    subst hcc
    rw [h] at h'
    exact Option.some.inj h'

theorem GoodExt.pres {st st' : Ds} (g : GoodExt st st') (w : Wf st) {k : Key}
    {v : Val} (h : st k = some v) : st' k = some v := by
  rcases g.ext k with h' | ⟨c, hk, h'⟩
  · rw [h', h]
  · subst hk
    rw [w c v h]
    exact h'

theorem genLoop_goodExt (hc : HeraldCfg) :
    ∀ (input buf : List MH) (next : Lnk) (st : Ds),
      GoodExt st (genLoop hc input buf next st).2.2 := by
  intro input
  induction input with
  | nil => intro buf next st; exact goodExt_refl st
  | cons mh rest ih =>
    intro buf next st
    simp only [genLoop, generateEntriesChunk]
    split
    · exact goodExt_trans (goodExt_putBlock st _) (ih _ _ _)
    · exact ih _ _ _

theorem generateEntries_goodExt (hc : HeraldCfg) (st : Ds) (mhs : List MH) :
    GoodExt st (generateEntries hc st mhs).2 := by
  simp only [generateEntries, generateEntriesChunk]
  split
  · exact goodExt_trans (genLoop_goodExt hc mhs [] Lnk.nilL st) (goodExt_putBlock _ _)
  · exact genLoop_goodExt hc mhs [] Lnk.nilL st

theorem genAd_noFail (hc : HeraldCfg) (st : Ds) (id : List Nat) (ents : Lnk)
    (rm : Bool) :
    generateAdvertisement hc noFail st id ents rm =
      (.ok (mkAd hc (headLnk st) ents id rm),
       dsPut (dsPut st (Key.blockKey (mkAd hc (headLnk st) ents id rm))
           (Val.blockBytes (mkAd hc (headLnk st) ents id rm)))
         Key.head (Val.cidBytes (mkAd hc (headLnk st) ents id rm))) := by
  unfold generateAdvertisement
  rw [getHead_eq]
  rfl

theorem runOp_step (hc : HeraldCfg) (st : Ds) (op : OpM) :
    ∃ c stMid,
      runOp hc noFail st op =
        (.ok c, dsPut (dsPut stMid (Key.blockKey c) (Val.blockBytes c))
          Key.head (Val.cidBytes c)) ∧
      GoodExt st stMid ∧ Lnk.adPrevOf c = some (headLnk st) := by
  cases op with
  | ret id =>
    exact ⟨mkAd hc (headLnk st) Lnk.noEntries id true, st,
      genAd_noFail .., goodExt_refl st, rfl⟩
  | pub cat =>
    have g : GoodExt st (generateEntries hc st cat.mhs).2 :=
      generateEntries_goodExt ..
    have hl : headLnk (generateEntries hc st cat.mhs).2 = headLnk st := by
      unfold headLnk; rw [g.headEq]
    refine ⟨mkAd hc (headLnk st) (generateEntries hc st cat.mhs).1 cat.id false,
      (generateEntries hc st cat.mhs).2, ?_, g, rfl⟩
    show publishM hc noFail st cat = _
    unfold publishM
    rw [genAd_noFail, hl]

theorem runOp_step' (hc : HeraldCfg) (st : Ds) (op : OpM) (w : Wf st) :
    ∃ c stA,
      runOp hc noFail st op = (.ok c, stA) ∧
      Lnk.adPrevOf c = some (headLnk st) ∧
      stA (Key.blockKey c) = some (Val.blockBytes c) ∧
      headLnk stA = c ∧ Wf stA ∧
      (∀ k v, st k = some v → k ≠ Key.head → stA k = some v) := by
  obtain ⟨c, stMid, heq, g, hprev⟩ := runOp_step hc st op
  have wMid : Wf stMid := g.wf w
  have g1 : GoodExt st (dsPut stMid (Key.blockKey c) (Val.blockBytes c)) :=
    goodExt_trans g (goodExt_putBlock ..)
  have w1 : Wf (dsPut stMid (Key.blockKey c) (Val.blockBytes c)) := g1.wf w
  refine ⟨c, _, heq, hprev, ?_, ?_, ?_, ?_⟩
  · rw [dsPut_other _ _ _ _ (by simp), dsPut_same]
  · unfold headLnk; rw [dsPut_same]
  · intro c' v h
    rw [dsPut_other _ _ _ _ (by simp)] at h
    exact w1 c' v h
  · intro k v h hk
    rw [dsPut_other _ _ _ _ hk]
    exact g1.pres w h

theorem runOps_chain (hc : HeraldCfg) :
    ∀ (ops : List OpM) (st : Ds), Wf st →
      Wf (runOps hc st ops).2 ∧
      (∀ k v, st k = some v → k ≠ Key.head → (runOps hc st ops).2 k = some v) ∧
      headLnk (runOps hc st ops).2 = lastLnk (headLnk st) (runOps hc st ops).1 ∧
      ChainFrom (runOps hc st ops).2 (headLnk st) (runOps hc st ops).1 := by
  intro ops
  induction ops with
  | nil => intro st w; exact ⟨w, fun _ _ h _ => h, rfl, trivial⟩
  | cons op rest ih =>
    intro st w
    obtain ⟨c, stA, heq, hprev, hblk, hhead, wA, hpres⟩ := runOp_step' hc st op w
    obtain ⟨wF, presF, headF, chainF⟩ := ih stA wA
    have hrun : runOps hc st (op :: rest) =
        (c :: (runOps hc stA rest).1, (runOps hc stA rest).2) := by
      simp only [runOps]
      rw [heq]
    rw [hrun]
    refine ⟨wF, ?_, ?_, ?_⟩
    · intro k v h hk
      exact presF k v (hpres k v h hk) hk
    · show headLnk (runOps hc stA rest).2 = lastLnk c (runOps hc stA rest).1
      rw [headF, hhead]
    · refine ⟨⟨hprev, presF _ _ hblk (by simp)⟩, ?_⟩
      rw [hhead] at chainF
      exact chainF

theorem chainFrom_get (dsF : Ds) :
    ∀ (cs : List Lnk) (p : Lnk) (i : Nat) (ci ci1 : Lnk),
      ChainFrom dsF p cs → cs[i]? = some ci → cs[i + 1]? = some ci1 →
      dsF (Key.blockKey ci1) = some (Val.blockBytes ci1) ∧
        Lnk.adPrevOf ci1 = some ci := by
  intro cs
  induction cs with
  | nil => intro p i ci ci1 _ h; simp at h
  | cons c rest ih =>
    intro p i ci ci1 hch h1 h2
    obtain ⟨_, hrest⟩ := hch
    cases i with
    | zero =>
      cases rest with
      | nil => simp at h2
      | cons c2 r2 =>
        obtain ⟨⟨hprev2, hblk2⟩, _⟩ := hrest
        simp only [List.getElem?_cons_zero, List.getElem?_cons_succ,
          Option.some.injEq] at h1 h2
        subst h1; subst h2
        exact ⟨hblk2, hprev2⟩
    | succ j =>
      simp only [List.getElem?_cons_succ] at h1 h2
      exact ih c j ci ci1 hrest h1 h2

theorem chainFrom_zero (dsF : Ds) (cs : List Lnk) (p : Lnk) (c0 : Lnk)
    (hch : ChainFrom dsF p cs) (h : cs[0]? = some c0) :
    dsF (Key.blockKey c0) = some (Val.blockBytes c0) ∧
      Lnk.adPrevOf c0 = some p := by
  cases cs with
  | nil => simp at h
  | cons c rest =>
    obtain ⟨⟨hp, hb⟩, _⟩ := hch
    simp only [List.getElem?_cons_zero, Option.some.injEq] at h
    subst h
    exact ⟨hb, hp⟩

theorem revJoin_walk (l : Lnk) :
    List.Perm (chunkWalkL l).flatten (revJoin l) := by
  induction l with
  | nilL => exact List.Perm.refl _
  | noEntries => exact List.Perm.refl _
  | chunk es nx ih =>
    simp only [chunkWalkL, revJoin, List.flatten_cons]
    exact (ih.append_left es).trans List.perm_append_comm
  | ad p prov addrs ents ctx md rm ih1 ih2 => exact List.Perm.refl _

theorem genLoop_spec (hc : HeraldCfg) (hcs : 1 ≤ hc.adEntriesChunkSize) :
    ∀ (input buf : List MH) (next : Lnk) (st : Ds),
      (buf.length : Int) < hc.adEntriesChunkSize →
      (∀ g ∈ chunkWalkL next, (g.length : Int) = hc.adEntriesChunkSize) →
      (((genLoop hc input buf next st).1.length : Int) < hc.adEntriesChunkSize ∧
       (∀ g ∈ chunkWalkL (genLoop hc input buf next st).2.1,
          (g.length : Int) = hc.adEntriesChunkSize) ∧
       revJoin (genLoop hc input buf next st).2.1 ++ (genLoop hc input buf next st).1 =
         revJoin next ++ buf ++ input) := by
  intro input
  induction input with
  | nil =>
    intro buf next st hlt hfull
    exact ⟨hlt, hfull, by simp [genLoop]⟩
  | cons mh rest ih =>
    intro buf next st hlt hfull
    simp only [genLoop, generateEntriesChunk]
    split
    · next hge =>
      have hlen : ((buf ++ [mh]).length : Int) = hc.adEntriesChunkSize := by
        simp only [List.length_append, List.length_cons, List.length_nil] at hge ⊢
        push_cast at hge ⊢
        omega
      have hfull' : ∀ g ∈ chunkWalkL (Lnk.chunk (buf ++ [mh]) next),
          (g.length : Int) = hc.adEntriesChunkSize := by
        intro g hg
        simp only [chunkWalkL, List.mem_cons] at hg
        rcases hg with rfl | hg
        · exact hlen
        · exact hfull g hg
      obtain ⟨h1, h2, h3⟩ := ih [] (Lnk.chunk (buf ++ [mh]) next)
        (dsPut st (Key.blockKey (Lnk.chunk (buf ++ [mh]) next))
          (Val.blockBytes (Lnk.chunk (buf ++ [mh]) next)))
        (by simpa using hcs) hfull'
      refine ⟨h1, h2, ?_⟩
      rw [h3]
      simp only [revJoin]
      simp [List.append_assoc]
    · next hge =>
      have hlt' : ((buf ++ [mh]).length : Int) < hc.adEntriesChunkSize := by
        omega
      obtain ⟨h1, h2, h3⟩ := ih (buf ++ [mh]) next st hlt' hfull
      refine ⟨h1, h2, ?_⟩
      rw [h3]
      simp [List.append_assoc]

theorem trimPfx_slash (r : List Char) :
    goTrimPfx ['/'] r = ['/'] ∨ goTrimPfx ['/'] r = [] := by
  cases r with
  | nil => left; rfl
  | cons c cs =>
    cases cs with
    | nil =>
      by_cases hc : c = '/'
      · subst hc; right; rfl
      · left
        simp only [goTrimPfx, goHasPfx, Bool.and_true]
        rw [if_neg]
        simp only [beq_iff_eq]
        exact hc
    | cons c2 cs2 =>
      left
      simp [goTrimPfx, goHasPfx]

theorem genAd_error_head (hc : HeraldCfg) (f : FailSpec) (st : Ds) (id : List Nat)
    (ents : Lnk) (rm : Bool) (e : Err)
    (h : (generateAdvertisement hc f st id ents rm).1 = .error e) :
    (generateAdvertisement hc f st id ents rm).2 Key.head = st Key.head := by
  unfold generateAdvertisement at h ⊢
  rw [getHead_eq] at h ⊢
  by_cases hs : f.signFails = true
  · simp [hs]
  · by_cases ht : f.toNodeFails = true
    · simp [hs, ht]
    · by_cases ha : f.adPutFails = true
      · simp [hs, ht, ha]
      · by_cases hh : f.headPutFails = true
        · simp [hs, ht, ha, hh, dsPut]
        · simp [hs, ht, ha, hh] at h

/-- Claim C1: for every sequence of successful Publish/Retract calls on one
Herald returning CIDs c1, ..., cn in writer-lock order, the advertisement
block stored under c(i+1) has its previousID field equal to a link to ci,
and the advertisement stored under c1 (the first ever) has previousID
absent (the nil link). -/
theorem chain_linearity (hc : HeraldCfg) (ops : List OpM) :
    (∀ (i : Nat) (ci ci1 : Lnk),
        (runOps hc dsEmpty ops).1[i]? = some ci →
        (runOps hc dsEmpty ops).1[i + 1]? = some ci1 →
        (runOps hc dsEmpty ops).2 (Key.blockKey ci1) = some (Val.blockBytes ci1) ∧
          Lnk.adPrevOf ci1 = some ci) ∧
    (∀ c0 : Lnk, (runOps hc dsEmpty ops).1[0]? = some c0 →
        (runOps hc dsEmpty ops).2 (Key.blockKey c0) = some (Val.blockBytes c0) ∧
          Lnk.adPrevOf c0 = some Lnk.nilL) := by
  have w0 : Wf dsEmpty := fun _ _ h => nomatch h
  obtain ⟨-, -, -, hch⟩ := runOps_chain hc ops dsEmpty w0
  have hnil : headLnk dsEmpty = Lnk.nilL := rfl
  rw [hnil] at hch
  exact ⟨fun i ci ci1 h1 h2 => chainFrom_get _ _ _ i ci ci1 hch h1 h2,
         fun c0 h0 => chainFrom_zero _ _ _ c0 hch h0⟩

/-- Witness for C1: a concrete publish-then-retract run; the second returned
CID names an advertisement stored with previousID equal to the first CID. -/
theorem chain_linearity_witness :
    (runOps cfgW dsEmpty opsW).2 (Key.blockKey adW2) = some (Val.blockBytes adW2) ∧
      Lnk.adPrevOf adW2 = some adW1 :=
  (chain_linearity cfgW opsW).1 0 adW1 adW2 (by decide) (by decide)

/-- Claim C2: after every successful Publish/Retract returning CID c, the
bytes at the fixed head key are the encoding of c, and an immediately
following GetHead decodes them back to exactly c. -/
theorem head_matches_returned (hc : HeraldCfg) (st : Ds) (op : OpM) (c : Lnk)
    (h : (runOp hc noFail st op).1 = .ok c) :
    (runOp hc noFail st op).2 Key.head = some (Val.cidBytes c) ∧
      GetHead (runOp hc noFail st op).2 = .ok c := by
  obtain ⟨c', stMid, heq, -, -⟩ := runOp_step hc st op
  rw [heq] at h ⊢
  dsimp only at h ⊢
  simp only [Except.ok.injEq] at h
  subst h
  refine ⟨?_, ?_⟩
  · exact dsPut_same _ _ _
  · rw [getHead_eq]
    unfold headLnk
    rw [dsPut_same]

/-- Witness for C2: a concrete retract from the empty store; GetHead on the
resulting store returns the CID the call returned. -/
theorem head_matches_returned_witness :
    (runOp cfgW noFail dsEmpty (OpM.ret [1])).2 Key.head = some (Val.cidBytes adR1) ∧
      GetHead (runOp cfgW noFail dsEmpty (OpM.ret [1])).2 = .ok adR1 :=
  head_matches_returned cfgW dsEmpty (OpM.ret [1]) adR1 rfl

/-- Claim C3: for a catalog yielding multihashes m1..mk without error (and a
valid chunk size of at least 1), walking the chunk list from the link the
entry builder returns collects exactly the multiset of the mi; every chunk
has at most chunkSize entries, and every chunk except the head (last
emitted) chunk has exactly chunkSize entries. -/
theorem entry_chunks_cover (hc : HeraldCfg) (hcs : 1 ≤ hc.adEntriesChunkSize)
    (st : Ds) (mhs : List MH) :
    List.Perm (chunkWalkL (generateEntries hc st mhs).1).flatten mhs ∧
    (∀ g ∈ chunkWalkL (generateEntries hc st mhs).1,
       (g.length : Int) ≤ hc.adEntriesChunkSize) ∧
    (∀ g ∈ (chunkWalkL (generateEntries hc st mhs).1).tail,
       (g.length : Int) = hc.adEntriesChunkSize) := by
  obtain ⟨hlt, hfull, hjoin⟩ :=
    genLoop_spec hc hcs mhs [] Lnk.nilL st (by simp; omega)
      (by intro g hg; simp [chunkWalkL] at hg)
  simp only [revJoin, List.append_nil, List.nil_append] at hjoin
  simp only [generateEntries, generateEntriesChunk]
  split
  · next hne =>
    dsimp only
    simp only [chunkWalkL, List.flatten_cons]
    refine ⟨?_, ?_, ?_⟩
    · have p1 : List.Perm
          ((genLoop hc mhs [] Lnk.nilL st).1 ++
            (chunkWalkL (genLoop hc mhs [] Lnk.nilL st).2.1).flatten)
          (revJoin (genLoop hc mhs [] Lnk.nilL st).2.1 ++
            (genLoop hc mhs [] Lnk.nilL st).1) :=
        (List.Perm.append_left _ (revJoin_walk _)).trans List.perm_append_comm
      rw [hjoin] at p1
      exact p1
    · intro g hg
      rcases List.mem_cons.mp hg with rfl | hg
      · exact le_of_lt hlt
      · exact le_of_eq (hfull g hg)
    · intro g hg
      exact hfull g hg
  · next hne =>
    dsimp only
    have h0 : (genLoop hc mhs [] Lnk.nilL st).1.length = 0 := not_not.mp hne
    have hbuf : (genLoop hc mhs [] Lnk.nilL st).1 = [] := List.length_eq_zero.mp h0
    rw [hbuf, List.append_nil] at hjoin
    refine ⟨?_, ?_, ?_⟩
    · have hp := revJoin_walk (genLoop hc mhs [] Lnk.nilL st).2.1
      rw [hjoin] at hp
      exact hp
    · intro g hg
      exact le_of_eq (hfull g hg)
    · intro g hg
      exact hfull g (List.mem_of_mem_tail hg)

/-- Witness for C3: a concrete build with chunk size 2 over three
multihashes; the flattened chunk walk is a permutation of the input. -/
theorem entry_chunks_cover_witness :
    List.Perm (chunkWalkL (generateEntries cfgW dsEmpty [10, 20, 30]).1).flatten
      [10, 20, 30] :=
  (entry_chunks_cover cfgW (by decide) dsEmpty [10, 20, 30]).1

/-- Counterexample to C4 as stated: on an empty catalog the entry builder
returns the nil (absent) link, not the schema NoEntries sentinel, and the
advertisement Publish produces carries the nil link, not the sentinel, in
its entries field. -/
theorem empty_catalog_not_sentinel :
    (generateEntries cfgW dsEmpty []).1 = Lnk.nilL ∧
    (generateEntries cfgW dsEmpty []).1 ≠ Lnk.noEntries ∧
    (publishM cfgW noFail dsEmpty ⟨[7], []⟩).1 = .ok adE7 ∧
    Lnk.adEnts adE7 ≠ some Lnk.noEntries :=
  ⟨rfl, by decide, rfl, by decide⟩

/-- Claim C4 (amended): for every Catalog whose iterator is immediately
exhausted, the entry builder writes no chunk blocks and returns the absent
(nil) link — not the NoEntries sentinel — so the advertisement produced by
Publish on an empty catalog carries the absent link in its entries field. -/
theorem empty_catalog_entries (hc : HeraldCfg) (st : Ds) :
    (generateEntries hc st []).1 = Lnk.nilL ∧
    (generateEntries hc st []).2 = st ∧
    (∀ (i : List Nat) (c : Lnk), (publishM hc noFail st ⟨i, []⟩).1 = .ok c →
      Lnk.adEnts c = some Lnk.nilL) := by
  refine ⟨rfl, rfl, ?_⟩
  intro i c h
  have h' : (generateAdvertisement hc noFail st i Lnk.nilL false).1 = .ok c := h
  rw [genAd_noFail] at h'
  simp only [Except.ok.injEq] at h'
  subst h'
  rfl

/-- Witness for C4 (amended): publishing a concrete empty catalog yields an
advertisement whose entries field is the absent link. -/
theorem empty_catalog_entries_witness : Lnk.adEnts adE7 = some Lnk.nilL :=
  (empty_catalog_entries cfgW dsEmpty).2.2 [7] adE7 rfl

/-- Claim C5 (the handler as written): because the source computes the path
parameter as strings.TrimPrefix("/", r.URL.RawPath) — the arguments are
reversed — the parameter is always "/" or "", neither of which is a valid
CID string, so every GET request is answered 400, including requests whose
path is the canonical string form of a stored block's CID. -/
theorem handleGetContent_always_400 (decode : List Char → Option Lnk)
    (hne : decode [] = none) (hns : decode ['/'] = none)
    (ds : Ds) (rawPath : List Char) :
    handleGetContentM decode ds rawPath = 400 := by
  unfold handleGetContentM
  rcases trimPfx_slash rawPath with h | h <;> rw [h] <;> dsimp only
  · rw [hns]
  · rw [hne]

/-- Witness for C5: a concrete request path is answered 400. -/
theorem handleGetContent_always_400_witness :
    handleGetContentM (fun _ => none) dsEmpty ['b', 'a', 'f'] = 400 :=
  handleGetContent_always_400 (fun _ => none) rfl rfl dsEmpty ['b', 'a', 'f']

/-- Claim C7: any Publish or Retract call that fails — signing, IPLD node
construction, the advertisement block write, or the head write itself —
leaves the datastore entry at the head key exactly as it was before the
call. -/
theorem error_paths_preserve_head (hc : HeraldCfg) (f : FailSpec) (st : Ds)
    (op : OpM) (e : Err) (h : (runOp hc f st op).1 = .error e) :
    (runOp hc f st op).2 Key.head = st Key.head := by
  cases op with
  | ret id => exact genAd_error_head hc f st id Lnk.noEntries true e h
  | pub cat =>
    have h' : (generateAdvertisement hc f (generateEntries hc st cat.mhs).2 cat.id
        (generateEntries hc st cat.mhs).1 false).1 = .error e := h
    have hh := genAd_error_head _ _ _ _ _ _ _ h'
    show (generateAdvertisement hc f (generateEntries hc st cat.mhs).2 cat.id
        (generateEntries hc st cat.mhs).1 false).2 Key.head = st Key.head
    rw [hh]
    exact (generateEntries_goodExt hc st cat.mhs).headEq

/-- Witness for C7: a retract whose signing step fails leaves the head key
of the empty store unset. -/
theorem error_paths_preserve_head_witness :
    (runOp cfgW fSign dsEmpty (OpM.ret [1])).2 Key.head = dsEmpty Key.head :=
  error_paths_preserve_head cfgW fSign dsEmpty (OpM.ret [1]) Err.signFail rfl

/-- Counterexample to C8 as stated: newOptions accepts a chunk size of 0 —
with metadata and a provider address set it returns a successfully
constructed options record carrying chunk size 0 instead of failing. -/
theorem chunk_size_zero_accepted : chunkSizeOf (newOptionsM optsC8) = some 0 := by
  decide

/-- Claim C8 (amended): construction performs no validation of the entries
chunk size: for every option list that sets metadata and provider
addresses, newOptions succeeds whatever chunk size value was supplied
(zero and negative included) and the constructed options carry that
value. -/
theorem chunk_size_unvalidated (v : Int) (md : List Nat) (a : List String) :
    chunkSizeOf (newOptionsM
      [GoOption.withMetadata md, GoOption.withProviderAddress a,
       GoOption.withAdEntriesChunkSize v]) = some v := rfl

/-- Claim C9: a successful Retract(id) stores an advertisement with isRm
true, contextID id, and the schema NoEntries sentinel (not a zero-length
chunk) as its entries link; no previously stored block is deleted or
modified, so prior advertisements remain readable. -/
theorem retract_semantics (hc : HeraldCfg) (st : Ds) (id : List Nat) (c : Lnk)
    (w : Wf st) (h : (retractM hc noFail st id).1 = .ok c) :
    Lnk.adIsRm c = some true ∧ Lnk.adCtx c = some id ∧
    Lnk.adEnts c = some Lnk.noEntries ∧
    (retractM hc noFail st id).2 (Key.blockKey c) = some (Val.blockBytes c) ∧
    (∀ k v, k ≠ Key.head → st k = some v →
      (retractM hc noFail st id).2 k = some v) := by
  unfold retractM at h ⊢
  rw [genAd_noFail] at h ⊢
  dsimp only at h ⊢
  simp only [Except.ok.injEq] at h
  subst h
  refine ⟨rfl, rfl, rfl, ?_, ?_⟩
  · rw [dsPut_other _ _ _ _ (by simp), dsPut_same]
  · intro k v hk hv
    rw [dsPut_other _ _ _ _ hk]
    by_cases hb : k = Key.blockKey (mkAd hc (headLnk st) Lnk.noEntries id true)
    · subst hb
      rw [dsPut_same, w _ v hv]
    · rw [dsPut_other _ _ _ _ hb]
      exact hv

/-- Witness for C9: a concrete retract from the empty store produces an
advertisement with isRm true, the given context id, and the NoEntries
sentinel. -/
theorem retract_semantics_witness :
    Lnk.adIsRm adR3 = some true ∧ Lnk.adCtx adR3 = some [3] ∧
      Lnk.adEnts adR3 = some Lnk.noEntries :=
  match retract_semantics cfgW dsEmpty [3] adR3 (fun _ _ h => nomatch h)
      rfl with
  | ⟨h1, h2, h3, _, _⟩ => ⟨h1, h2, h3⟩

/-- Claim C10: when the datastore holds, at the head key, bytes that do not
parse as a valid CID, GetHead returns the absent sentinel with a nil error,
and GET /head responds 204, exactly as for an empty chain. -/
theorem corrupt_head_reads_empty (ds : Ds) (v : Val) (sf : Bool)
    (hv : ds Key.head = some v) (hnc : ∀ c, v ≠ Val.cidBytes c) :
    GetHead ds = .ok Lnk.nilL ∧ handleGetHeadM sf ds = 204 := by
  have hg : GetHead ds = .ok Lnk.nilL := by
    unfold GetHead
    rw [hv]
    cases v with
    | cidBytes c => exact absurd rfl (hnc c)
    | blockBytes b => rfl
    | junkBytes n => rfl
  refine ⟨hg, ?_⟩
  unfold handleGetHeadM
  rw [hg]

/-- Witness for C10: a store with junk bytes at the head key; GetHead
returns the absent link and /head answers 204 even when signing would
fail. -/
theorem corrupt_head_reads_empty_witness :
    GetHead dsJunk = .ok Lnk.nilL ∧ handleGetHeadM true dsJunk = 204 :=
  corrupt_head_reads_empty dsJunk (Val.junkBytes 0) true rfl
    (fun _ h => nomatch h)

/-- Counterexample to C6 as stated: with chunk size 2 and multihashes
[1,2,3,4,5], traversing from the entry builder's returned link yields
chunks [5], [3,4], [1,2] — the chunks group from the start of the
iterator — not [5,4], [3,2], [1]. -/
theorem five_mh_walk_ce :
    chunkWalkL (generateEntries cfgW dsEmpty [1, 2, 3, 4, 5]).1 ≠
      [[5, 4], [3, 2], [1]] := by decide

/-- Claim C6 (amended): with chunk size 2 and a catalog yielding exactly
h1..h5 in order, the builder emits exactly three chunks, and traversing
from the returned entries link yields entry lists [h5], then [h3,h4],
then [h1,h2]: chunk boundaries group from the start of the iterator and
within-chunk order is preserved. -/
theorem five_mh_chunk_walk (h1 h2 h3 h4 h5 : MH) (st : Ds) :
    chunkWalkL (generateEntries cfgW st [h1, h2, h3, h4, h5]).1 =
      [[h5], [h3, h4], [h1, h2]] ∧
    (chunkWalkL (generateEntries cfgW st [h1, h2, h3, h4, h5]).1).length = 3 :=
  ⟨rfl, rfl⟩

end HeraldModel
